import Mathlib

/-! # Hilbert curve generator: embedding of `src/hilbert.js`

The class `HilbertCurve` of `src/hilbert.js` is embedded as follows.

* `d2xy`, `generatePoints`, `calculateLength` are pure functions.  JavaScript
  numbers holding integers are `Nat` (the index `t`, the scale `s`, the bits
  `rx`, `ry`) or `Int` (the coordinates, because of `s - 1 - x`).  The `for`
  loop of `d2xy` is a recursion on an explicit fuel and returns `none` when the
  fuel runs out, so that every statement about a returned point is also a
  statement that the loop ends.
* `calculateLength` is polymorphic in the number type and takes the square
  root as a parameter; the theorems instantiate it with `ℝ` and `Real.sqrt`.
* The animation (`drawAnimated`, `stopAnimation`, `drawInstant`, the closure
  `animate`, and the host functions `requestAnimationFrame` and
  `cancelAnimationFrame`) is a state machine on `Renderer`.  A call that throws
  returns `error` with the state at the throw: `points[0].x` on an empty array,
  and the spread `Math.max(...)` on an array longer than the engine's argument
  limit, which is a parameter of the host.
-/

namespace Hilbert

/-! ## Points -/

/-- A point object with fields x and y, as built by `return { x, y }`. -/
structure Point (α : Type) where
  x : α
  y : α
  deriving DecidableEq, Repr

/-! ## `d2xy` (src/hilbert.js, lines 20-45) -/

/-- One pass through the body of the `for` loop of `d2xy` (lines 26-41), at
scale `s`, on the accumulator `(x, y)` and the remaining index `t`; returns the
new `(x, y, t)`.  `1 & (t / 2)` truncates the quotient to an integer before
masking, hence the natural-number division. -/
def d2xyBody (s : Nat) (x y : Int) (t : Nat) : Int × Int × Nat :=
  let rx : Nat := 1 &&& (t / 2)
  let ry : Nat := 1 &&& (t ^^^ rx)
  let rotated : Int × Int :=
    if ry = 0 then
      let flipped : Int × Int :=
        if rx = 1 then ((s : Int) - 1 - x, (s : Int) - 1 - y) else (x, y)
      (flipped.2, flipped.1)
    else (x, y)
  (rotated.1 + (s : Int) * (rx : Int), rotated.2 + (s : Int) * (ry : Int), t / 4)

/-- The loop `for (s = 1; s < n; s *= 2)` of `d2xy`, entered with the current
`s`, `x`, `y`, `t`.  The first argument is the fuel: `none` means that the fuel
ran out before `s < n` failed. -/
def d2xyLoop : Nat → Nat → Nat → Int → Int → Nat → Option (Point Int)
  | 0, n, s, x, y, _ => if s < n then none else some ⟨x, y⟩
  | fuel + 1, n, s, x, y, t =>
    if s < n then
      d2xyLoop fuel n (s * 2) (d2xyBody s x y t).1 (d2xyBody s x y t).2.1
        (d2xyBody s x y t).2.2
    else some ⟨x, y⟩

/-- The method `d2xy(n, d)`: starts from `x = 0, y = 0, s = 1, t = d`.  The
fuel `n` is never exhausted (`d2xy_isSome`). -/
def d2xy (n d : Nat) : Option (Point Int) :=
  d2xyLoop n n 1 0 0 d

/-! ## `generatePoints` (lines 52-63) -/

/-- The loop `for (let i = 0; i < totalPoints; i++) points.push(d2xy(n, i))`,
with `count = totalPoints - i` iterations left. -/
def generatePointsLoop (n : Nat) : Nat → Nat → List (Point Int) → Option (List (Point Int))
  | 0, _, points => some points
  | count + 1, i, points =>
    match d2xy n i with
    | none => none
    | some point => generatePointsLoop n count (i + 1) (points ++ [point])

/-- The method `generatePoints(order)`. -/
def generatePoints (order : Nat) : Option (List (Point Int)) :=
  let n := 2 ^ order
  let totalPoints := n * n
  generatePointsLoop n totalPoints 0 []

/-! ## `calculateLength` (lines 198-206) -/

/-- The loop of `calculateLength`: `length` is the running sum, the list starts
at `points[i - 1]`. -/
def calculateLengthLoop {α : Type} [Add α] [Sub α] [Mul α] (sqrt : α → α) :
    α → List (Point α) → α
  | length, p :: q :: rest =>
    let dx := q.x - p.x
    let dy := q.y - p.y
    calculateLengthLoop sqrt (length + sqrt (dx * dx + dy * dy)) (q :: rest)
  | length, _ => length

/-- The method `calculateLength(points)`, with `Math.sqrt` as a parameter. -/
def calculateLength {α : Type} [Zero α] [Add α] [Sub α] [Mul α] (sqrt : α → α)
    (points : List (Point α)) : α :=
  calculateLengthLoop sqrt 0 points

/-- The point sequence with every coordinate multiplied by `c`. -/
def scalePoints {α : Type} [Mul α] (c : α) (points : List (Point α)) : List (Point α) :=
  points.map (fun p => ⟨c * p.x, c * p.y⟩)

/-- The integer points of a curve read as real points. -/
def toReal (points : List (Point Int)) : List (Point ℝ) :=
  points.map (fun p => ⟨(p.x : ℝ), (p.y : ℝ)⟩)

/-- Chebyshev distance `max(|dx|, |dy|)` of two grid points. -/
def chebyshev (p q : Point Int) : Int :=
  max |q.x - p.x| |q.y - p.y|

/-! ## Auxiliary description of the accumulator of `d2xy` -/

/-- The accumulator `(x, y)` of `d2xy` after `j` passes of the loop on index
`d`: pass number `i` runs the body at scale `2 ^ i` on `t = d / 4 ^ i`. -/
def acc : Nat → Nat → Int × Int
  | 0, _ => (0, 0)
  | j + 1, d =>
    ((d2xyBody (2 ^ j) (acc j d).1 (acc j d).2 (d / 4 ^ j)).1,
     (d2xyBody (2 ^ j) (acc j d).1 (acc j d).2 (d / 4 ^ j)).2.1)

/-! ## The renderer and the host's frame scheduler -/

/-- What the renderer does to the outside world, in the order it happens.
Pixel coordinates, colours and widths are left out: a path is recorded by the
grid points it runs through. -/
inductive Event where
  /-- The call `ctx.fillRect(0, 0, width, height)` that wipes the canvas. -/
  | clear
  /-- A `ctx.stroke()` of the polyline through these points. -/
  | stroke (path : List (Point Int))
  /-- The second `ctx.stroke()` of `drawInstant`, with `shadowBlur = 10`. -/
  | glow (path : List (Point Int))
  /-- The filled disc drawn at the head of the animated curve. -/
  | disc (head : Point Int)
  /-- A call of the `onComplete` callback. -/
  | complete
  deriving DecidableEq, Repr

/-- The variables captured by the closure `animate` of one `drawAnimated`
call: `points`, `pointsPerFrame`, the mutable `currentIndex`, and whether an
`onComplete` callback was passed. -/
structure Session where
  points : List (Point Int)
  pointsPerFrame : Nat
  currentIndex : Nat
  onComplete : Bool
  deriving DecidableEq, Repr

/-- The renderer object together with the part of the host it talks to:
`animationId` is the field `this.animationId` (`none` is `null`), `frames` is
the host's list of scheduled frame callbacks with their handles, oldest first,
`nextId` is the handle the next `requestAnimationFrame` returns, `log` is
everything drawn so far, and `argLimit` is the largest number of arguments the
engine accepts in one call: it depends on the engine, and is taken to be the
same for every call on one host. -/
structure Renderer where
  animationId : Option Nat
  frames : List (Nat × Session)
  nextId : Nat
  log : List Event
  argLimit : Nat
  deriving DecidableEq, Repr

/-- A renderer as the constructor leaves it (`this.animationId = null`), on a
host whose next handle is `nextId` and whose engine accepts `argLimit`
arguments in a call. -/
def initial (nextId argLimit : Nat) : Renderer :=
  ⟨none, [], nextId, [], argLimit⟩

/-- Appends events to the log. -/
def Renderer.draw (σ : Renderer) (es : List Event) : Renderer :=
  { σ with log := σ.log ++ es }

/-- The host function `requestAnimationFrame(callback)`: registers the callback
and returns its handle. -/
def requestAnimationFrame (σ : Renderer) (a : Session) : Nat × Renderer :=
  (σ.nextId, { σ with frames := σ.frames ++ [(σ.nextId, a)], nextId := σ.nextId + 1 })

/-- The host function `cancelAnimationFrame(handle)`. -/
def cancelAnimationFrame (σ : Renderer) (id : Nat) : Renderer :=
  { σ with frames := σ.frames.filter (fun e => e.1 ≠ id) }

/-- The state a call leaves behind, whether it returned (`ok`) or threw
(`error`). -/
def after : Except Renderer Renderer → Renderer
  | .ok σ => σ
  | .error σ => σ

/-- The expression `Math.max(...points.map(p => Math.max(p.x, p.y)))` of lines
78 and 124.  The spread makes every element of the array one argument of the
call, and beyond the engine's limit the call throws `RangeError`: that is the
outer `none`.  The value (the inner `none` is the `-Infinity` of an empty
array) only enters the pixel scale, which the log leaves out. -/
def maxCoord (argLimit : Nat) (points : List (Point Int)) : Option (Option Int) :=
  if argLimit < points.length then none
  else
    some ((points.map (fun p => max p.x p.y)).foldl
      (fun m c =>
        match m with
        | none => some c
        | some v => some (max v c)) none)

/-- The method `drawInstant(points, ...)` (lines 72-109).  The spread of line
78 throws before anything is drawn when the array is too long for the engine;
on an empty array `points[0].x` throws after the canvas was cleared. -/
def drawInstant (σ : Renderer) (points : List (Point Int)) : Except Renderer Renderer :=
  match maxCoord σ.argLimit points with
  | none => .error σ
  | some _ =>
    let σ1 := σ.draw [Event.clear]
    match points with
    | [] => .error σ1
    | _ :: _ => .ok (σ1.draw [Event.stroke points, Event.glow points])

/-- The value of `endIndex` in a call of `animate` (line 149). -/
def Session.endIndex (a : Session) : Nat :=
  min (a.currentIndex + a.pointsPerFrame) a.points.length

/-- The closure after `currentIndex = endIndex` (line 174). -/
def Session.advance (a : Session) : Session :=
  { a with currentIndex := a.endIndex }

/-- The drawing part of a call of `animate` (lines 139-172): the polyline from
`points[0]` through `points[endIndex - 1]`, and the disc at its head when
`endIndex > 1`. -/
def drawPartial (σ : Renderer) (points : List (Point Int)) (first : Point Int)
    (endIndex : Nat) : Renderer :=
  let σ2 := σ.draw [Event.stroke (first :: (points.take endIndex).drop 1)]
  if 1 < endIndex then
    match points[endIndex - 1]? with
    | some lastPoint => σ2.draw [Event.disc lastPoint]
    | none => σ2
  else σ2

/-- One call of the closure `animate` (lines 133-183).  On an empty array
`points[0].x` throws after the canvas was cleared. -/
def animate (σ : Renderer) (a : Session) : Except Renderer Renderer :=
  let σ1 := σ.draw [Event.clear]
  match a.points with
  | [] => .error σ1
  | first :: _ =>
    let σ3 := drawPartial σ1 a.points first a.endIndex
    let a1 := a.advance
    if a1.currentIndex < a.points.length then
      let r := requestAnimationFrame σ3 a1
      .ok { r.2 with animationId := some r.1 }
    else
      match drawInstant σ3 a.points with
      | .error σ4 => .error σ4
      | .ok σ4 => .ok (if a.onComplete then σ4.draw [Event.complete] else σ4)

/-- The closure built by `drawAnimated` before its first call:
`pointsPerFrame = Math.max(1, Math.ceil(totalPoints / 500))`, `currentIndex = 0`.
For a natural number `n` the ceiling of `n / 500` is `(n + 499) / 500` in
natural-number division (`ceil_div_eq`). -/
def startSession (points : List (Point Int)) (onComplete : Bool) : Session :=
  { points := points
    pointsPerFrame := max 1 ((points.length + 499) / 500)
    currentIndex := 0
    onComplete := onComplete }

/-- The test `if (this.animationId)`: `null` and `0` are falsy. -/
def truthy : Option Nat → Bool
  | some id => id ≠ 0
  | none => false

/-- The method `drawAnimated(points, ..., onComplete)` (lines 119-191): computes
`maxCoord` (line 124), whose spread throws before anything else happens when
the array is too long for the engine; then cancels the handle in `animationId`
if there is one, and calls `animate()` once. -/
def drawAnimated (σ : Renderer) (points : List (Point Int)) (onComplete : Bool) :
    Except Renderer Renderer :=
  match maxCoord σ.argLimit points with
  | none => .error σ
  | some _ =>
    let σ1 :=
      match σ.animationId with
      | some id => if truthy (some id) then cancelAnimationFrame σ id else σ
      | none => σ
    animate σ1 (startSession points onComplete)

/-- The method `stopAnimation()` (lines 211-216). -/
def stopAnimation (σ : Renderer) : Renderer :=
  match σ.animationId with
  | some id =>
    if truthy (some id) then { cancelAnimationFrame σ id with animationId := none } else σ
  | none => σ

/-- The body of the timer callback of `generateCurve` (lines 266-282), with the
slider value `order` and the checkbox value `animated` as arguments. -/
def generateCurve (σ : Renderer) (order : Nat) (animated : Bool) :
    Option (Except Renderer Renderer) :=
  match generatePoints order with
  | none => none
  | some points =>
    if animated && decide (points.length ≤ 65536) then
      some (drawAnimated σ points true)
    else
      some (drawInstant σ points)

/-- The host runs the oldest scheduled frame callback: it leaves the list and
is called.  `none` when nothing is scheduled. -/
def runFrame (σ : Renderer) : Option (Except Renderer Renderer) :=
  match σ.frames with
  | [] => none
  | e :: rest => some (animate { σ with frames := rest } e.2)

/-- The host runs frame callbacks `j` times, as far as there are any. -/
def runFrames : Nat → Renderer → Renderer
  | 0, σ => σ
  | j + 1, σ =>
    match runFrame σ with
    | none => σ
    | some r => runFrames j (after r)

/-- One thing that can happen to a renderer: a method call or a frame. -/
inductive Step : Renderer → Renderer → Prop where
  | drawInstant (σ : Renderer) (points : List (Point Int)) :
      Step σ (after (drawInstant σ points))
  | drawAnimated (σ : Renderer) (points : List (Point Int)) (onComplete : Bool) :
      Step σ (after (drawAnimated σ points onComplete))
  | stopAnimation (σ : Renderer) : Step σ (stopAnimation σ)
  | frame (σ : Renderer) (r : Except Renderer Renderer) :
      runFrame σ = some r → Step σ (after r)

/-- The states a renderer can be in: those reached from a fresh renderer, on a
host whose handles are positive, by method calls and frames. -/
def Reachable (σ : Renderer) : Prop :=
  ∃ n limit, 0 < n ∧ Relation.ReflTransGen Step (initial n limit) σ

/-- The handles of the scheduled frame callbacks. -/
def Renderer.pending (σ : Renderer) : List Nat :=
  σ.frames.map Prod.fst

/-- A scheduled closure is in order: it advances by at least one point per
frame and has not reached the end of its points. -/
def Session.Live (a : Session) : Prop :=
  1 ≤ a.pointsPerFrame ∧ a.currentIndex < a.points.length

/-- The invariant of the renderer: handles are positive, `animationId` is null
or a handle given out earlier, and at most one frame callback is scheduled,
whose handle is the one in `animationId` and whose points passed the spread of
line 124. -/
def Inv (σ : Renderer) : Prop :=
  0 < σ.nextId ∧
  (∀ id, σ.animationId = some id → 0 < id ∧ id < σ.nextId) ∧
  (σ.frames = [] ∨
    ∃ id a, σ.frames = [(id, a)] ∧ σ.animationId = some id ∧ a.Live ∧
      a.points.length ≤ σ.argLimit)

/-- Every scheduled handle, and every handle still to be given out, is at
least `m`. -/
def Fresh (m : Nat) (σ : Renderer) : Prop :=
  m ≤ σ.nextId ∧ ∀ id ∈ σ.pending, m ≤ id

/-- The number of calls of `animate` an animation of `n` points takes:
`ceil(n / pointsPerFrame)`. -/
def ticks (points : List (Point Int)) : Nat :=
  (points.length + (startSession points false).pointsPerFrame - 1) /
    (startSession points false).pointsPerFrame

/-- The four quadrant maps of the curve at scale `s`: what the body of the loop
of `d2xy` does to the accumulator when the two low bits of `t` are `q`. -/
def quad (s : Nat) (q : Nat) (p : Int × Int) : Int × Int :=
  if q = 0 then (p.2, p.1)
  else if q = 1 then (p.1, p.2 + (s : Int))
  else if q = 2 then (p.1 + (s : Int), p.2 + (s : Int))
  else ((s : Int) - 1 - p.2 + (s : Int), (s : Int) - 1 - p.1)

/-- Two grid points are neighbours along one axis. -/
def Adjacent (p q : Int × Int) : Prop :=
  (q.1 - p.1 = 0 ∧ (q.2 - p.2 = 1 ∨ q.2 - p.2 = -1)) ∨
  (q.2 - p.2 = 0 ∧ (q.1 - p.1 = 1 ∨ q.1 - p.1 = -1))

/-- The point `d2xy (2 ^ k) d` returns, read off the accumulator. -/
def curvePoint (k d : Nat) : Point Int :=
  ⟨(acc k d).1, (acc k d).2⟩

/-! ## Theorems about `d2xy` and `generatePoints` -/

theorem d2xyBody_eq (s : Nat) (x y : Int) (t : Nat) :
    d2xyBody s x y t = ((quad s (t % 4) (x, y)).1, (quad s (t % 4) (x, y)).2, t / 4) := by
  unfold d2xyBody quad
  simp only [Nat.one_and_eq_mod_two, Nat.xor_mod_two_eq]
  rcases (by omega : t % 4 = 0 ∨ t % 4 = 1 ∨ t % 4 = 2 ∨ t % 4 = 3) with h | h | h | h
  · have h1 : t / 2 % 2 = 0 := by omega
    have h2 : (t + 0) % 2 = 0 := by omega
    rw [h1, h2]; simp [h]
  · have h1 : t / 2 % 2 = 0 := by omega
    have h2 : (t + 0) % 2 = 1 := by omega
    rw [h1, h2]; simp [h]
  · have h1 : t / 2 % 2 = 1 := by omega
    have h2 : (t + 1) % 2 = 1 := by omega
    rw [h1, h2]; simp [h]
  · have h1 : t / 2 % 2 = 1 := by omega
    have h2 : (t + 1) % 2 = 0 := by omega
    rw [h1, h2]; simp [h]

theorem acc_succ (j d : Nat) :
    acc (j + 1) d = quad (2 ^ j) (d / 4 ^ j % 4) (acc j d) := by
  rw [acc, d2xyBody_eq]

theorem quad_range (s q : Nat) (p : Int × Int)
    (h1 : 0 ≤ p.1 ∧ p.1 < s) (h2 : 0 ≤ p.2 ∧ p.2 < s) :
    (0 ≤ (quad s q p).1 ∧ (quad s q p).1 < 2 * (s : Int)) ∧
    (0 ≤ (quad s q p).2 ∧ (quad s q p).2 < 2 * (s : Int)) := by
  unfold quad
  split_ifs <;> simp only <;> omega

theorem acc_range (j d : Nat) :
    (0 ≤ (acc j d).1 ∧ (acc j d).1 < ((2 ^ j : Nat) : Int)) ∧
    (0 ≤ (acc j d).2 ∧ (acc j d).2 < ((2 ^ j : Nat) : Int)) := by
  induction j with
  | zero => simp [acc]
  | succ j ih =>
    rw [acc_succ]
    have h := quad_range (2 ^ j) (d / 4 ^ j % 4) (acc j d) ih.1 ih.2
    have e : ((2 ^ (j + 1) : Nat) : Int) = 2 * ((2 ^ j : Nat) : Int) := by
      push_cast; ring
    rw [e]
    exact h

theorem acc_add_mul (j d m : Nat) : acc j (d + 4 ^ j * m) = acc j d := by
  induction j generalizing m with
  | zero => simp [acc]
  | succ j ih =>
    rw [acc_succ, acc_succ]
    have e : d + 4 ^ (j + 1) * m = d + 4 ^ j * (4 * m) := by ring
    rw [e, ih, Nat.add_mul_div_left _ _ (by positivity : 0 < 4 ^ j)]
    congr 1
    omega

theorem acc_decomp (j q r : Nat) (hr : r < 4 ^ j) :
    acc (j + 1) (4 ^ j * q + r) = quad (2 ^ j) (q % 4) (acc j r) := by
  rw [acc_succ, Nat.add_comm (4 ^ j * q) r, acc_add_mul,
    Nat.add_mul_div_left _ _ (by positivity : 0 < 4 ^ j), Nat.div_eq_of_lt hr, Nat.zero_add]

theorem index_decomp (j d : Nat) (hd : d < 4 ^ (j + 1)) :
    ∃ q r, q < 4 ∧ r < 4 ^ j ∧ d = 4 ^ j * q + r := by
  have hpos : 0 < 4 ^ j := by positivity
  refine ⟨d / 4 ^ j, d % 4 ^ j, ?_, Nat.mod_lt _ hpos, (Nat.div_add_mod d (4 ^ j)).symm⟩
  rw [Nat.div_lt_iff_lt_mul hpos]
  calc d < 4 ^ (j + 1) := hd
    _ = 4 * 4 ^ j := by ring

theorem quad_inj (s q q' : Nat) (p p' : Int × Int) (hq : q < 4) (hq' : q' < 4)
    (h1 : 0 ≤ p.1 ∧ p.1 < s) (h2 : 0 ≤ p.2 ∧ p.2 < s)
    (h1' : 0 ≤ p'.1 ∧ p'.1 < s) (h2' : 0 ≤ p'.2 ∧ p'.2 < s)
    (h : quad s q p = quad s q' p') : q = q' ∧ p = p' := by
  obtain ⟨a, b⟩ := p
  obtain ⟨a', b'⟩ := p'
  unfold quad at h
  simp only at h1 h2 h1' h2'
  split_ifs at h <;> simp only [Prod.mk.injEq] at h ⊢ <;> omega

theorem acc_inj (j d d' : Nat) (hd : d < 4 ^ j) (hd' : d' < 4 ^ j)
    (h : acc j d = acc j d') : d = d' := by
  induction j generalizing d d' with
  | zero =>
    simp only [pow_zero, Nat.lt_one_iff] at hd hd'
    omega
  | succ j ih =>
    obtain ⟨q, r, hq, hr, rfl⟩ := index_decomp j d hd
    obtain ⟨q', r', hq', hr', rfl⟩ := index_decomp j d' hd'
    rw [acc_decomp j q r hr, acc_decomp j q' r' hr', Nat.mod_eq_of_lt hq,
      Nat.mod_eq_of_lt hq'] at h
    obtain ⟨e1, e2⟩ := quad_inj (2 ^ j) q q' (acc j r) (acc j r') hq hq'
      (acc_range j r).1 (acc_range j r).2 (acc_range j r').1 (acc_range j r').2 h
    rw [e1, ih r r' hr hr' e2]

theorem quad_surj (s : Nat) (c : Int × Int)
    (h1 : 0 ≤ c.1 ∧ c.1 < 2 * (s : Int)) (h2 : 0 ≤ c.2 ∧ c.2 < 2 * (s : Int)) :
    ∃ q p, q < 4 ∧ (0 ≤ p.1 ∧ p.1 < (s : Int)) ∧ (0 ≤ p.2 ∧ p.2 < (s : Int)) ∧
      quad s q p = c := by
  obtain ⟨a, b⟩ := c
  simp only at h1 h2
  by_cases ha : a < s <;> by_cases hb : b < s
  · exact ⟨0, (b, a), by norm_num, by simp only; omega, by simp only; omega, by simp [quad]⟩
  · exact ⟨1, (a, b - s), by norm_num, by simp only; omega, by simp only; omega,
      by simp [quad]⟩
  · refine ⟨3, ((s : Int) - 1 - b, 2 * (s : Int) - 1 - a), by norm_num, by simp only; omega,
      by simp only; omega, ?_⟩
    simp only [quad, OfNat.ofNat_ne_zero, OfNat.ofNat_ne_one, if_false, Prod.mk.injEq]
    norm_num
    ring
  · exact ⟨2, (a - s, b - s), by norm_num, by simp only; omega, by simp only; omega,
      by simp [quad]⟩

theorem acc_surj (j : Nat) (c : Int × Int)
    (h1 : 0 ≤ c.1 ∧ c.1 < ((2 ^ j : Nat) : Int)) (h2 : 0 ≤ c.2 ∧ c.2 < ((2 ^ j : Nat) : Int)) :
    ∃ d, d < 4 ^ j ∧ acc j d = c := by
  induction j generalizing c with
  | zero =>
    refine ⟨0, by norm_num, ?_⟩
    obtain ⟨a, b⟩ := c
    simp only [pow_zero, Nat.cast_one] at h1 h2
    simp only [acc, Prod.mk.injEq]
    omega
  | succ j ih =>
    have e : ((2 ^ (j + 1) : Nat) : Int) = 2 * ((2 ^ j : Nat) : Int) := by
      push_cast; ring
    rw [e] at h1 h2
    obtain ⟨q, p, hq, hp1, hp2, hqp⟩ := quad_surj (2 ^ j) c h1 h2
    obtain ⟨r, hr, hacc⟩ := ih p hp1 hp2
    refine ⟨4 ^ j * q + r, ?_, ?_⟩
    · have : 4 ^ j * q ≤ 4 ^ j * 3 := Nat.mul_le_mul_left _ (by omega)
      have e4 : 4 ^ (j + 1) = 4 ^ j * 3 + 4 ^ j := by ring
      omega
    · rw [acc_decomp j q r hr, Nat.mod_eq_of_lt hq, hacc, hqp]

theorem quad_adjacent (s q : Nat) (p p' : Int × Int) (h : Adjacent p p') :
    Adjacent (quad s q p) (quad s q p') := by
  unfold Adjacent quad at *
  split_ifs <;> simp only <;> omega

theorem acc_first (j : Nat) : acc j 0 = (0, 0) := by
  induction j with
  | zero => rfl
  | succ j ih => rw [acc_succ, ih]; simp [quad]

theorem acc_last (j : Nat) : acc j (4 ^ j - 1) = (((2 ^ j : Nat) : Int) - 1, 0) := by
  induction j with
  | zero => simp [acc]
  | succ j ih =>
    have hpos : 0 < 4 ^ j := by positivity
    have e : 4 ^ (j + 1) - 1 = 4 ^ j * 3 + (4 ^ j - 1) := by
      have : 4 ^ (j + 1) = 4 ^ j * 3 + 4 ^ j := by ring
      omega
    rw [e, acc_decomp j 3 (4 ^ j - 1) (by omega), ih]
    simp only [quad, Nat.reduceMod, OfNat.ofNat_ne_zero, OfNat.ofNat_ne_one, if_false,
      Prod.mk.injEq]
    norm_num
    ring

theorem acc_adjacent (j d : Nat) (hd : d + 1 < 4 ^ j) :
    Adjacent (acc j d) (acc j (d + 1)) := by
  induction j generalizing d with
  | zero =>
    simp only [pow_zero] at hd
    omega
  | succ j ih =>
    obtain ⟨q, r, hq, hr, rfl⟩ := index_decomp j d (by omega)
    by_cases hlast : r + 1 < 4 ^ j
    · rw [Nat.add_assoc, acc_decomp j q r hr, acc_decomp j q (r + 1) hlast]
      exact quad_adjacent _ _ _ _ (ih r hlast)
    · have hr1 : r = 4 ^ j - 1 := by omega
      have e : 4 ^ j * q + r + 1 = 4 ^ j * (q + 1) + 0 := by
        rw [hr1, Nat.mul_add]; omega
      have hq3 : q < 3 := by
        by_contra hcon
        have hq3 : q = 3 := by omega
        subst hq3
        have : 4 ^ (j + 1) = 4 ^ j * 3 + 4 ^ j := by ring
        omega
      rw [e, acc_decomp j q r hr, acc_decomp j (q + 1) 0 (by positivity), hr1, acc_last,
        acc_first, Nat.mod_eq_of_lt hq, Nat.mod_eq_of_lt (by omega : q + 1 < 4)]
      have hs : 1 ≤ 2 ^ j := Nat.one_le_two_pow
      generalize 2 ^ j = S at hs ⊢
      rcases (by omega : q = 0 ∨ q = 1 ∨ q = 2) with h | h | h <;> subst h <;>
        simp only [Adjacent, quad] <;> norm_num

theorem d2xyLoop_isSome (fuel n s : Nat) (x y : Int) (t : Nat) (h : n ≤ s * 2 ^ fuel) :
    (d2xyLoop fuel n s x y t).isSome = true := by
  induction fuel generalizing s x y t with
  | zero =>
    have : ¬ s < n := by simpa using h
    simp [d2xyLoop, this]
  | succ fuel ih =>
    rw [d2xyLoop]
    split
    · exact ih _ _ _ _ (by rw [pow_succ] at h; calc n ≤ s * (2 ^ fuel * 2) := h
        _ = s * 2 * 2 ^ fuel := by ring)
    · rfl

/-- The loop of `d2xy` ends within the fuel `n`, whatever `n` and `d` are. -/
theorem d2xy_isSome (n d : Nat) : (d2xy n d).isSome = true :=
  d2xyLoop_isSome n n 1 0 0 d (by rw [Nat.one_mul]; exact (Nat.lt_two_pow n).le)

theorem d2xyLoop_acc (m j fuel d : Nat) (hm : m ≤ fuel) :
    d2xyLoop fuel (2 ^ (j + m)) (2 ^ j) (acc j d).1 (acc j d).2 (d / 4 ^ j) =
      some (curvePoint (j + m) d) := by
  induction m generalizing j fuel with
  | zero =>
    cases fuel <;> simp [d2xyLoop, curvePoint]
  | succ m ih =>
    obtain ⟨fuel, rfl⟩ : ∃ f, fuel = f + 1 := ⟨fuel - 1, by omega⟩
    have hlt : 2 ^ j < 2 ^ (j + (m + 1)) := Nat.pow_lt_pow_right (by norm_num) (by omega)
    rw [d2xyLoop, if_pos hlt]
    have e1 : 2 ^ j * 2 = 2 ^ (j + 1) := by ring
    have e2 : (d2xyBody (2 ^ j) (acc j d).1 (acc j d).2 (d / 4 ^ j)).2.2 = d / 4 ^ (j + 1) := by
      rw [d2xyBody_eq, Nat.div_div_eq_div_mul, pow_succ]
    have e3 : j + (m + 1) = (j + 1) + m := by omega
    rw [e1, e2, e3]
    exact ih (j + 1) fuel (by omega)

/-- On a grid of side `2 ^ k` the method returns the accumulator after `k`
passes. -/
theorem d2xy_pow (k d : Nat) : d2xy (2 ^ k) d = some (curvePoint k d) := by
  have h := d2xyLoop_acc k 0 (2 ^ k) d (Nat.lt_two_pow k).le
  simpa [d2xy, acc] using h

theorem generatePointsLoop_eq (n : Nat) (f : Nat → Point Int)
    (hf : ∀ i, d2xy n i = some (f i)) (count i : Nat) (points : List (Point Int)) :
    generatePointsLoop n count i points = some (points ++ (List.range' i count).map f) := by
  induction count generalizing i points with
  | zero => simp [generatePointsLoop]
  | succ count ih =>
    rw [generatePointsLoop, hf i]
    simp only
    rw [ih, List.range'_succ]
    simp

/-- The array `generatePoints(k)` is the list of the points `d2xy(2^k, d)` for
`d = 0, ..., 4^k - 1`. -/
theorem generatePoints_eq (k : Nat) :
    generatePoints k = some ((List.range (4 ^ k)).map (curvePoint k)) := by
  have e : 2 ^ k * 2 ^ k = 4 ^ k := by
    rw [← Nat.mul_pow]
  simp only [generatePoints]
  rw [generatePointsLoop_eq (2 ^ k) (curvePoint k) (d2xy_pow k), e, List.range_eq_range']
  simp

theorem curvePoint_inj (k d d' : Nat) (hd : d < 4 ^ k) (hd' : d' < 4 ^ k)
    (h : curvePoint k d = curvePoint k d') : d = d' := by
  apply acc_inj k d d' hd hd'
  simp only [curvePoint, Point.mk.injEq] at h
  exact Prod.ext h.1 h.2

theorem curve_nodup (k : Nat) : ((List.range (4 ^ k)).map (curvePoint k)).Nodup := by
  rw [List.nodup_map_iff_inj_on (List.nodup_range _)]
  intro d hd d' hd' h
  exact curvePoint_inj k d d' (List.mem_range.mp hd) (List.mem_range.mp hd') h

theorem curve_getElem? (k i : Nat) (hi : i < 4 ^ k) :
    ((List.range (4 ^ k)).map (curvePoint k))[i]? = some (curvePoint k i) := by
  simp [List.getElem?_map, List.getElem?_range hi]

theorem curvePoint_adjacent (k d : Nat) (hd : d + 1 < 4 ^ k) :
    Adjacent ((curvePoint k d).x, (curvePoint k d).y)
      ((curvePoint k (d + 1)).x, (curvePoint k (d + 1)).y) :=
  acc_adjacent k d hd

theorem chebyshev_of_adjacent (p q : Point Int) (h : Adjacent (p.x, p.y) (q.x, q.y)) :
    chebyshev p q = 1 := by
  unfold Adjacent at h
  unfold chebyshev
  rcases h with ⟨h0, h1 | h1⟩ | ⟨h0, h1 | h1⟩ <;> simp only at h0 h1 <;> rw [h0, h1] <;> simp

theorem curve_range (k : Nat) (p : Point Int)
    (hp : p ∈ (List.range (4 ^ k)).map (curvePoint k)) :
    0 ≤ p.x ∧ p.x < 2 ^ k ∧ 0 ≤ p.y ∧ p.y < 2 ^ k := by
  obtain ⟨d, -, rfl⟩ := List.mem_map.mp hp
  have h := acc_range k d
  simp only [Nat.cast_pow, Nat.cast_ofNat] at h
  exact ⟨h.1.1, h.1.2, h.2.1, h.2.2⟩

theorem curve_mem (k : Nat) (x y : Int) (hx : 0 ≤ x ∧ x < 2 ^ k) (hy : 0 ≤ y ∧ y < 2 ^ k) :
    ∃ d, d < 4 ^ k ∧ curvePoint k d = ⟨x, y⟩ := by
  obtain ⟨d, hd, h⟩ := acc_surj k (x, y) (by simpa using hx) (by simpa using hy)
  exact ⟨d, hd, by simp [curvePoint, h]⟩

theorem curve_chain (k : Nat) :
    List.Chain' (fun p q : Point Int => Adjacent (p.x, p.y) (q.x, q.y))
      ((List.range (4 ^ k)).map (curvePoint k)) := by
  rw [List.chain'_map]
  obtain ⟨m, hm⟩ : ∃ m, 4 ^ k = m + 1 := ⟨4 ^ k - 1, by have : 0 < 4 ^ k := by positivity
                                                        omega⟩
  rw [hm, List.chain'_range_succ]
  intro d hd
  exact curvePoint_adjacent k d (by omega)

theorem sqrt_segment_of_adjacent (p q : Point Int) (h : Adjacent (p.x, p.y) (q.x, q.y)) :
    Real.sqrt (((q.x : ℝ) - (p.x : ℝ)) * ((q.x : ℝ) - (p.x : ℝ)) +
      ((q.y : ℝ) - (p.y : ℝ)) * ((q.y : ℝ) - (p.y : ℝ))) = 1 := by
  have ex : (q.x : ℝ) - (p.x : ℝ) = ((q.x - p.x : Int) : ℝ) := by push_cast; ring
  have ey : (q.y : ℝ) - (p.y : ℝ) = ((q.y - p.y : Int) : ℝ) := by push_cast; ring
  rw [ex, ey]
  unfold Adjacent at h
  rcases h with ⟨h0, h1 | h1⟩ | ⟨h0, h1 | h1⟩ <;> simp only at h0 h1 <;> rw [h0, h1] <;>
    norm_num

theorem calculateLengthLoop_chain (l : List (Point Int)) (a : ℝ)
    (h : List.Chain' (fun p q : Point Int => Adjacent (p.x, p.y) (q.x, q.y)) l) :
    calculateLengthLoop Real.sqrt a (toReal l) = a + ((l.length - 1 : Nat) : ℝ) := by
  induction l generalizing a with
  | nil => simp [toReal, calculateLengthLoop]
  | cons p rest ih =>
    cases rest with
    | nil => simp [toReal, calculateLengthLoop]
    | cons q rest =>
      rw [List.chain'_cons] at h
      have hrec := ih (a + 1) h.2
      simp only [toReal, List.map_cons, calculateLengthLoop] at hrec ⊢
      rw [sqrt_segment_of_adjacent p q h.1, hrec]
      simp only [List.length_cons, Nat.add_sub_cancel]
      push_cast
      ring

theorem calculateLengthLoop_scale (c : ℝ) (l : List (Point ℝ)) (a : ℝ) :
    calculateLengthLoop Real.sqrt (|c| * a) (scalePoints c l) =
      |c| * calculateLengthLoop Real.sqrt a l := by
  induction l generalizing a with
  | nil => simp [scalePoints, calculateLengthLoop]
  | cons p rest ih =>
    cases rest with
    | nil => simp [scalePoints, calculateLengthLoop]
    | cons q rest =>
      have hrec := ih (a + Real.sqrt ((q.x - p.x) * (q.x - p.x) + (q.y - p.y) * (q.y - p.y)))
      simp only [scalePoints, List.map_cons, calculateLengthLoop] at hrec ⊢
      rw [← hrec]
      congr 1
      have e : (c * q.x - c * p.x) * (c * q.x - c * p.x) +
          (c * q.y - c * p.y) * (c * q.y - c * p.y) =
          c ^ 2 * ((q.x - p.x) * (q.x - p.x) + (q.y - p.y) * (q.y - p.y)) := by ring
      rw [e, Real.sqrt_mul (sq_nonneg c), Real.sqrt_sq_eq_abs]
      ring

/-! ### The claims about the curve -/

/-- C1: for every order k from 1 to 8, `generatePoints k` returns a list of
exactly 4^k points, each with coordinates in `[0, 2^k)`, without repetition,
whose entry `d` is `d2xy (2^k) d`; every cell of the grid occurs exactly once
in it, and is `d2xy (2^k) d` for exactly one index `d < 4^k`. -/
theorem generatePoints_grid_bijection (k : Nat) (_h1 : 1 ≤ k) (_h8 : k ≤ 8) :
    ∃ pts, generatePoints k = some pts ∧ pts.length = 4 ^ k ∧
      (∀ p ∈ pts, 0 ≤ p.x ∧ p.x < 2 ^ k ∧ 0 ≤ p.y ∧ p.y < 2 ^ k) ∧
      pts.Nodup ∧
      (∀ d, d < 4 ^ k → pts[d]? = d2xy (2 ^ k) d) ∧
      (∀ x y : Int, 0 ≤ x → x < 2 ^ k → 0 ≤ y → y < 2 ^ k →
        pts.count ⟨x, y⟩ = 1 ∧ ∃! d, d < 4 ^ k ∧ d2xy (2 ^ k) d = some ⟨x, y⟩) := by
  refine ⟨_, generatePoints_eq k, by simp, curve_range k, curve_nodup k, ?_, ?_⟩
  · intro d hd
    rw [curve_getElem? k d hd, d2xy_pow]
  · intro x y hx0 hx hy0 hy
    obtain ⟨d, hd, hp⟩ := curve_mem k x y ⟨hx0, hx⟩ ⟨hy0, hy⟩
    constructor
    · apply List.count_eq_one_of_mem (curve_nodup k)
      exact List.mem_map.mpr ⟨d, List.mem_range.mpr hd, hp⟩
    · refine ⟨d, ⟨hd, by rw [d2xy_pow, hp]⟩, ?_⟩
      rintro d' ⟨hd', h'⟩
      rw [d2xy_pow, Option.some.injEq] at h'
      exact curvePoint_inj k d' d hd' hd (h'.trans hp.symm)

theorem generatePoints_grid_bijection_witness :
    (1 ≤ 1 ∧ 1 ≤ 8) ∧
    ∃ pts, generatePoints 1 = some pts ∧ pts.length = 4 ^ 1 ∧
      (∀ p ∈ pts, 0 ≤ p.x ∧ p.x < 2 ^ 1 ∧ 0 ≤ p.y ∧ p.y < 2 ^ 1) ∧
      pts.Nodup ∧
      (∀ d, d < 4 ^ 1 → pts[d]? = d2xy (2 ^ 1) d) ∧
      (∀ x y : Int, 0 ≤ x → x < 2 ^ 1 → 0 ≤ y → y < 2 ^ 1 →
        pts.count ⟨x, y⟩ = 1 ∧ ∃! d, d < 4 ^ 1 ∧ d2xy (2 ^ 1) d = some ⟨x, y⟩) :=
  ⟨by decide, generatePoints_grid_bijection 1 (by decide) (by decide)⟩

/-- C2: for every order k from 1 to 8 and every index `i < 4^k - 1`, the
entries `i` and `i + 1` of `generatePoints k` exist and have Chebyshev distance
exactly 1. -/
theorem generatePoints_consecutive_chebyshev (k : Nat) (_h1 : 1 ≤ k) (_h8 : k ≤ 8) :
    ∃ pts, generatePoints k = some pts ∧
      ∀ i, i < 4 ^ k - 1 →
        ∃ p q, pts[i]? = some p ∧ pts[i + 1]? = some q ∧ chebyshev p q = 1 := by
  refine ⟨_, generatePoints_eq k, ?_⟩
  intro i hi
  exact ⟨curvePoint k i, curvePoint k (i + 1), curve_getElem? k i (by omega),
    curve_getElem? k (i + 1) (by omega),
    chebyshev_of_adjacent _ _ (curvePoint_adjacent k i (by omega))⟩

theorem generatePoints_consecutive_chebyshev_witness :
    (1 ≤ 2 ∧ 2 ≤ 8) ∧
    ∃ pts, generatePoints 2 = some pts ∧
      ∀ i, i < 4 ^ 2 - 1 →
        ∃ p q, pts[i]? = some p ∧ pts[i + 1]? = some q ∧ chebyshev p q = 1 :=
  ⟨by decide, generatePoints_consecutive_chebyshev 2 (by decide) (by decide)⟩

/-- C3: `d2xy 2 d` for d = 0, 1, 2, 3 is (0,0), (0,1), (1,1), (1,0), and
`generatePoints 1` is exactly this sequence. -/
theorem d2xy_order_one :
    d2xy 2 0 = some ⟨0, 0⟩ ∧ d2xy 2 1 = some ⟨0, 1⟩ ∧ d2xy 2 2 = some ⟨1, 1⟩ ∧
    d2xy 2 3 = some ⟨1, 0⟩ ∧
    generatePoints 1 = some [⟨0, 0⟩, ⟨0, 1⟩, ⟨1, 1⟩, ⟨1, 0⟩] := by
  decide

/-- C9: read with `n` as the iteration level, as the docstring of `d2xy` has
it, the method does not return the points of the curve: `d2xy 1 1` is (0,0)
while entry 1 of `generatePoints 1` is (0,1). -/
theorem d2xy_level_one_mismatch :
    d2xy 1 1 = some ⟨0, 0⟩ ∧
    ∃ pts, generatePoints 1 = some pts ∧ pts[1]? = some ⟨0, 1⟩ ∧ pts[1]? ≠ d2xy 1 1 := by
  refine ⟨by decide, [⟨0, 0⟩, ⟨0, 1⟩, ⟨1, 1⟩, ⟨1, 0⟩], by decide, by decide, by decide⟩

/-! ### The claims about `calculateLength` -/

/-- C4: for every order k from 1 to 8, every segment between consecutive
points of `generatePoints k` has Euclidean length exactly 1, and
`calculateLength` of the curve is the number of segments, 4^k - 1 (3 for
k = 1). -/
theorem calculateLength_curve (k : Nat) (_h1 : 1 ≤ k) (_h8 : k ≤ 8) :
    ∃ pts, generatePoints k = some pts ∧
      (∀ i, i < 4 ^ k - 1 → ∃ p q, pts[i]? = some p ∧ pts[i + 1]? = some q ∧
        Real.sqrt (((q.x : ℝ) - (p.x : ℝ)) * ((q.x : ℝ) - (p.x : ℝ)) +
          ((q.y : ℝ) - (p.y : ℝ)) * ((q.y : ℝ) - (p.y : ℝ))) = 1) ∧
      calculateLength Real.sqrt (toReal pts) = (4 : ℝ) ^ k - 1 := by
  refine ⟨_, generatePoints_eq k, ?_, ?_⟩
  · intro i hi
    exact ⟨curvePoint k i, curvePoint k (i + 1), curve_getElem? k i (by omega),
      curve_getElem? k (i + 1) (by omega),
      sqrt_segment_of_adjacent _ _ (curvePoint_adjacent k i (by omega))⟩
  · rw [calculateLength, calculateLengthLoop_chain _ _ (curve_chain k)]
    have hpos : 1 ≤ 4 ^ k := Nat.one_le_pow _ _ (by norm_num)
    simp only [List.length_map, List.length_range, zero_add]
    rw [Nat.cast_sub hpos]
    push_cast
    ring

theorem calculateLength_curve_witness :
    (1 ≤ 1 ∧ 1 ≤ 8) ∧
    ∃ pts, generatePoints 1 = some pts ∧
      (∀ i, i < 4 ^ 1 - 1 → ∃ p q, pts[i]? = some p ∧ pts[i + 1]? = some q ∧
        Real.sqrt (((q.x : ℝ) - (p.x : ℝ)) * ((q.x : ℝ) - (p.x : ℝ)) +
          ((q.y : ℝ) - (p.y : ℝ)) * ((q.y : ℝ) - (p.y : ℝ))) = 1) ∧
      calculateLength Real.sqrt (toReal pts) = (4 : ℝ) ^ 1 - 1 :=
  ⟨by decide, calculateLength_curve 1 (by decide) (by decide)⟩

/-- C5, as stated, fails: scaling the segment from (0,0) to (1,0) by c = -1
gives length 1, not -1 times the length 1 of the segment. -/
theorem calculateLength_scale_negative :
    calculateLength Real.sqrt (scalePoints (-1) [⟨0, 0⟩, ⟨1, 0⟩]) ≠
      (-1) * calculateLength Real.sqrt [⟨0, 0⟩, ⟨1, 0⟩] := by
  simp only [calculateLength, calculateLengthLoop, scalePoints, List.map_cons, List.map_nil]
  norm_num

/-- C5, amended: over the reals, `calculateLength` of the sequence with every
coordinate multiplied by c is |c| times `calculateLength` of the sequence. -/
theorem calculateLength_scale_abs (c : ℝ) (ps : List (Point ℝ)) :
    calculateLength Real.sqrt (scalePoints c ps) = |c| * calculateLength Real.sqrt ps := by
  have h := calculateLengthLoop_scale c ps 0
  rw [mul_zero] at h
  exact h

/-! ## Theorems about the renderer -/

@[simp] theorem draw_frames (σ : Renderer) (es : List Event) :
    (σ.draw es).frames = σ.frames := rfl

@[simp] theorem draw_animationId (σ : Renderer) (es : List Event) :
    (σ.draw es).animationId = σ.animationId := rfl

@[simp] theorem draw_nextId (σ : Renderer) (es : List Event) :
    (σ.draw es).nextId = σ.nextId := rfl

@[simp] theorem draw_argLimit (σ : Renderer) (es : List Event) :
    (σ.draw es).argLimit = σ.argLimit := rfl

/-- The spread of lines 78 and 124 goes through when the array is within the
engine's limit. -/
theorem maxCoord_of_le (limit : Nat) (points : List (Point Int))
    (h : points.length ≤ limit) : ∃ m, maxCoord limit points = some m := by
  unfold maxCoord
  rw [if_neg (by omega)]
  exact ⟨_, rfl⟩

/-- The spread of lines 78 and 124 throws when the array is beyond the engine's
limit. -/
theorem maxCoord_of_lt (limit : Nat) (points : List (Point Int))
    (h : limit < points.length) : maxCoord limit points = none := by
  unfold maxCoord
  rw [if_pos h]

theorem drawPartial_fields (σ : Renderer) (points : List (Point Int)) (first : Point Int)
    (endIndex : Nat) :
    (drawPartial σ points first endIndex).frames = σ.frames ∧
    (drawPartial σ points first endIndex).animationId = σ.animationId ∧
    (drawPartial σ points first endIndex).nextId = σ.nextId ∧
    (drawPartial σ points first endIndex).argLimit = σ.argLimit := by
  unfold drawPartial
  split_ifs
  · split <;> simp
  · simp

/-- A call of `drawInstant`, whether it returns or throws, touches neither the
scheduled frames nor `animationId`. -/
theorem drawInstant_fields (σ : Renderer) (points : List (Point Int)) :
    (after (drawInstant σ points)).frames = σ.frames ∧
    (after (drawInstant σ points)).animationId = σ.animationId ∧
    (after (drawInstant σ points)).nextId = σ.nextId ∧
    (after (drawInstant σ points)).argLimit = σ.argLimit := by
  unfold drawInstant
  cases maxCoord σ.argLimit points with
  | none => simp [after]
  | some m => cases points <;> simp [after]

theorem drawInstant_ok (σ : Renderer) (points : List (Point Int)) (h : points ≠ [])
    (hl : points.length ≤ σ.argLimit) : ∃ σ', drawInstant σ points = .ok σ' := by
  obtain ⟨m, hm⟩ := maxCoord_of_le σ.argLimit points hl
  unfold drawInstant
  rw [hm]
  cases points with
  | nil => exact absurd rfl h
  | cons p rest => exact ⟨_, rfl⟩

/-- What a call of `animate` does to the scheduler, whether it returns or
throws: it schedules itself again under a new handle, which it stores in
`animationId`, exactly when the advanced cursor is short of the end. -/
theorem animate_fields (σ : Renderer) (a : Session) :
    (after (animate σ a)).frames =
      (if a.endIndex < a.points.length then σ.frames ++ [(σ.nextId, a.advance)]
        else σ.frames) ∧
    (after (animate σ a)).animationId =
      (if a.endIndex < a.points.length then some σ.nextId else σ.animationId) ∧
    (after (animate σ a)).nextId =
      (if a.endIndex < a.points.length then σ.nextId + 1 else σ.nextId) ∧
    (after (animate σ a)).argLimit = σ.argLimit := by
  unfold animate
  cases hp : a.points with
  | nil =>
    have : ¬ a.endIndex < 0 := Nat.not_lt_zero _
    simp [after, hp]
  | cons first rest =>
    simp only
    have hd := drawPartial_fields (σ.draw [Event.clear]) (first :: rest) first a.endIndex
    have hadv : a.advance.currentIndex = a.endIndex := rfl
    rw [hadv]
    by_cases hlt : a.endIndex < (first :: rest).length
    · rw [if_pos hlt, if_pos hlt, if_pos hlt, if_pos hlt]
      simp [after, requestAnimationFrame, hd.1, hd.2.2.1, hd.2.2.2]
    · have hi := drawInstant_fields (drawPartial (σ.draw [Event.clear]) (first :: rest)
        first a.endIndex) (first :: rest)
      rw [if_neg hlt, if_neg hlt, if_neg hlt, if_neg hlt]
      generalize drawInstant (drawPartial (σ.draw [Event.clear]) (first :: rest)
        first a.endIndex) (first :: rest) = r at hi ⊢
      cases r with
      | error σ4 =>
        simp only [after] at hi ⊢
        simp [hi.1, hi.2.1, hi.2.2.1, hi.2.2.2, hd.1, hd.2.1, hd.2.2.1, hd.2.2.2]
      | ok σ4 =>
        simp only [after] at hi ⊢
        cases a.onComplete <;>
          simp [hi.1, hi.2.1, hi.2.2.1, hi.2.2.2, hd.1, hd.2.1, hd.2.2.1, hd.2.2.2]

theorem animate_ok (σ : Renderer) (a : Session) (h : a.points ≠ [])
    (hl : a.points.length ≤ σ.argLimit) : ∃ σ', animate σ a = .ok σ' := by
  unfold animate
  cases hp : a.points with
  | nil => exact absurd hp h
  | cons first rest =>
    simp only
    rw [hp] at hl
    by_cases hlt : a.advance.currentIndex < (first :: rest).length
    · rw [if_pos hlt]
      exact ⟨_, rfl⟩
    · obtain ⟨σ4, h4⟩ := drawInstant_ok (drawPartial (σ.draw [Event.clear]) (first :: rest)
        first a.endIndex) (first :: rest) (by simp)
        (by rw [(drawPartial_fields _ _ _ _).2.2.2]; exact hl)
      rw [if_neg hlt, h4]
      exact ⟨_, rfl⟩

theorem startSession_endIndex (points : List (Point Int)) (oc : Bool) :
    (startSession points oc).endIndex =
      min (max 1 ((points.length + 499) / 500)) points.length := by
  simp [Session.endIndex, startSession]

theorem startSession_endIndex_lt (points : List (Point Int)) (oc : Bool)
    (h : 2 ≤ points.length) :
    (startSession points oc).endIndex < (startSession points oc).points.length := by
  rw [startSession_endIndex]
  simp only [startSession]
  omega

theorem advance_live (a : Session) (h1 : 1 ≤ a.pointsPerFrame)
    (h : a.endIndex < a.points.length) : a.advance.Live :=
  ⟨h1, h⟩

/-- On an array beyond the engine's limit `drawAnimated` throws at line 124,
before the cancellation: nothing has changed. -/
theorem drawAnimated_throws (σ : Renderer) (points : List (Point Int)) (oc : Bool)
    (h : σ.argLimit < points.length) : drawAnimated σ points oc = .error σ := by
  unfold drawAnimated
  rw [maxCoord_of_lt σ.argLimit points h]

/-- In a state that satisfies the invariant, `drawAnimated` on an array within
the engine's limit amounts to a call of `animate` with no frame scheduled: its
cancellation removes the frame there is. -/
theorem drawAnimated_eq (σ : Renderer) (points : List (Point Int)) (oc : Bool) (h : Inv σ)
    (hl : points.length ≤ σ.argLimit) :
    drawAnimated σ points oc = animate { σ with frames := [] } (startSession points oc) := by
  obtain ⟨m, hm⟩ := maxCoord_of_le σ.argLimit points hl
  obtain ⟨aid, frames, nextId, log, limit⟩ := σ
  simp only at hm
  obtain ⟨-, hid, hf | ⟨id, a, hf, hida, -, -⟩⟩ := h
  · simp only at hf
    subst hf
    unfold drawAnimated
    simp only [hm]
    cases aid with
    | none => rfl
    | some id => simp [cancelAnimationFrame]
  · simp only at hf hida hid
    subst hf hida
    have hpos := (hid id rfl).1
    have ht : truthy (some id) = true := by simp [truthy]; omega
    unfold drawAnimated
    simp [hm, cancelAnimationFrame, ht]

theorem inv_congr (σ σ' : Renderer) (hf : σ'.frames = σ.frames)
    (ha : σ'.animationId = σ.animationId) (hn : σ'.nextId = σ.nextId)
    (hl : σ'.argLimit = σ.argLimit) (h : Inv σ) :
    Inv σ' := by
  unfold Inv at *
  rw [hf, ha, hn, hl]
  exact h

theorem pending_congr (σ σ' : Renderer) (hf : σ'.frames = σ.frames) :
    σ'.pending = σ.pending := by
  unfold Renderer.pending
  rw [hf]

/-- A call of `animate` with no frame scheduled, on a closure that advances and
whose points are within the engine's limit, re-establishes the invariant; the
only handle that can be scheduled afterwards is the new one. -/
theorem animate_inv (σ : Renderer) (a : Session) (hn : 0 < σ.nextId)
    (hid : ∀ id, σ.animationId = some id → 0 < id ∧ id < σ.nextId)
    (hf : σ.frames = []) (h1 : 1 ≤ a.pointsPerFrame)
    (hl : a.points.length ≤ σ.argLimit) :
    Inv (after (animate σ a)) ∧ σ.nextId ≤ (after (animate σ a)).nextId ∧
      ∀ id ∈ (after (animate σ a)).pending, id = σ.nextId := by
  obtain ⟨e1, e2, e3, e4⟩ := animate_fields σ a
  unfold Inv Renderer.pending
  rw [e1, e2, e3, e4, hf]
  by_cases hlt : a.endIndex < a.points.length
  · simp only [if_pos hlt, List.nil_append]
    refine ⟨⟨by omega, ?_, Or.inr ⟨σ.nextId, a.advance, rfl, rfl, advance_live a h1 hlt, hl⟩⟩,
      by omega, by simp⟩
    intro id hsome
    rw [Option.some.injEq] at hsome
    omega
  · simp only [if_neg hlt]
    exact ⟨⟨hn, hid, by simp⟩, le_refl _, by simp⟩

/-- In a state that satisfies the invariant, `stopAnimation` leaves no frame
scheduled and `animationId` null, and draws nothing. -/
theorem stopAnimation_fields (σ : Renderer) (h : Inv σ) :
    (stopAnimation σ).frames = [] ∧ (stopAnimation σ).nextId = σ.nextId ∧
      (stopAnimation σ).log = σ.log ∧ (stopAnimation σ).animationId = none ∧
      (stopAnimation σ).argLimit = σ.argLimit := by
  obtain ⟨aid, frames, nextId, log, limit⟩ := σ
  obtain ⟨-, hid, hf | ⟨id, a, hf, hida, -, -⟩⟩ := h
  · simp only at hf hid
    subst hf
    unfold stopAnimation
    cases aid with
    | none => simp
    | some id =>
      have hpos := (hid id rfl).1
      have ht : truthy (some id) = true := by simp [truthy]; omega
      simp [cancelAnimationFrame, ht]
  · simp only at hf hida hid
    subst hf hida
    have hpos := (hid id rfl).1
    have ht : truthy (some id) = true := by simp [truthy]; omega
    unfold stopAnimation
    simp [cancelAnimationFrame, ht]

/-- Every step keeps the invariant, never lowers the next handle, and
schedules no handle other than the old ones and the next one. -/
theorem step_inv (σ σ' : Renderer) (hs : Step σ σ') (h : Inv σ) :
    Inv σ' ∧ σ.nextId ≤ σ'.nextId ∧ ∀ id ∈ σ'.pending, id ∈ σ.pending ∨ id = σ.nextId := by
  cases hs with
  | drawInstant points =>
    obtain ⟨e1, e2, e3, e4⟩ := drawInstant_fields σ points
    refine ⟨inv_congr σ _ e1 e2 e3 e4 h, by omega, ?_⟩
    intro id hid
    rw [pending_congr σ _ e1] at hid
    exact Or.inl hid
  | drawAnimated points oc =>
    by_cases hl : points.length ≤ σ.argLimit
    · rw [drawAnimated_eq σ points oc h hl]
      obtain ⟨i1, i2, i3⟩ := animate_inv { σ with frames := [] } (startSession points oc)
        h.1 h.2.1 rfl (by simp [startSession]) hl
      exact ⟨i1, i2, fun id hid => Or.inr (i3 id hid)⟩
    · rw [drawAnimated_throws σ points oc (by omega)]
      exact ⟨h, le_refl _, fun id hid => Or.inl hid⟩
  | stopAnimation =>
    obtain ⟨e1, e2, -, e4, -⟩ := stopAnimation_fields σ h
    refine ⟨⟨by rw [e2]; exact h.1, (by rw [e4]; intro id hid; cases hid), Or.inl e1⟩,
      by omega, ?_⟩
    intro id hid
    simp [Renderer.pending, e1] at hid
  | frame r hr =>
    unfold runFrame at hr
    obtain ⟨hn, hid, hf | ⟨id, a, hf, -, hlive, hlen⟩⟩ := h
    · rw [hf] at hr
      simp at hr
    · rw [hf] at hr
      simp only [Option.some.injEq] at hr
      subst hr
      obtain ⟨i1, i2, i3⟩ := animate_inv { σ with frames := [] } a hn hid rfl hlive.1 hlen
      exact ⟨i1, i2, fun id hid => Or.inr (i3 id hid)⟩

theorem steps_inv (σ σ' : Renderer) (hs : Relation.ReflTransGen Step σ σ') (h : Inv σ) :
    Inv σ' := by
  induction hs with
  | refl => exact h
  | tail _ hstep ih => exact (step_inv _ _ hstep ih).1

/-- Every reachable state satisfies the invariant. -/
theorem reachable_inv (σ : Renderer) (h : Reachable σ) : Inv σ := by
  obtain ⟨n, limit, hn, hs⟩ := h
  refine steps_inv _ _ hs ⟨hn, ?_, Or.inl rfl⟩
  intro id hid
  cases hid

theorem steps_fresh (m : Nat) (σ σ' : Renderer) (hs : Relation.ReflTransGen Step σ σ')
    (h : Inv σ) (hm : Fresh m σ) : Fresh m σ' := by
  induction hs with
  | refl => exact hm
  | tail hsteps hstep ih =>
    obtain ⟨-, h2, h3⟩ := step_inv _ _ hstep (steps_inv _ _ hsteps h)
    refine ⟨le_trans ih.1 h2, ?_⟩
    intro id hid
    rcases h3 id hid with hold | hnew
    · exact ih.2 id hold
    · rw [hnew]; exact ih.1

/-- From a state that satisfies the invariant, `drawAnimated` on at least two
points, and no more than the engine accepts, returns with exactly its own frame
scheduled, under the next handle, which is stored in `animationId`. -/
theorem drawAnimated_spec (σ : Renderer) (points : List (Point Int)) (oc : Bool) (h : Inv σ)
    (hp : 2 ≤ points.length) (hl : points.length ≤ σ.argLimit) :
    ∃ σ', drawAnimated σ points oc = .ok σ' ∧
      σ'.frames = [(σ.nextId, (startSession points oc).advance)] ∧
      σ'.animationId = some σ.nextId ∧ σ'.nextId = σ.nextId + 1 := by
  have hne : (startSession points oc).points ≠ [] := by
    intro hnil
    simp only [startSession] at hnil
    rw [hnil] at hp
    simp at hp
  obtain ⟨σ', hok⟩ := animate_ok { σ with frames := [] } (startSession points oc) hne hl
  obtain ⟨e1, e2, e3, -⟩ := animate_fields { σ with frames := [] } (startSession points oc)
  have hlt := startSession_endIndex_lt points oc hp
  rw [hok, if_pos hlt] at e1 e2 e3
  simp only [after, List.nil_append] at e1 e2 e3
  exact ⟨σ', by rw [drawAnimated_eq σ points oc h hl, hok], e1, e2, e3⟩

/-- When `drawAnimated` returns, the array was within the engine's limit. -/
theorem drawAnimated_ok_le (σ σ' : Renderer) (points : List (Point Int)) (oc : Bool)
    (h : drawAnimated σ points oc = .ok σ') : points.length ≤ σ.argLimit := by
  by_contra hcon
  rw [drawAnimated_throws σ points oc (by omega)] at h
  cases h

theorem generatePoints_length (k : Nat) (points : List (Point Int))
    (h : generatePoints k = some points) : points.length = 4 ^ k := by
  rw [generatePoints_eq, Option.some.injEq] at h
  rw [← h]
  simp

theorem inv_pending_lt (σ : Renderer) (h : Inv σ) : ∀ id ∈ σ.pending, id < σ.nextId := by
  intro id hid
  obtain ⟨-, hbound, hf | ⟨id0, a, hf, hida, -, -⟩⟩ := h
  · simp [Renderer.pending, hf] at hid
  · simp only [Renderer.pending, hf, List.map_cons, List.map_nil, List.mem_singleton] at hid
    rw [hid]; exact (hbound id0 hida).2

theorem ceil_div_eq (n p : Nat) (hp : 0 < p) : ⌈(n : ℚ) / (p : ℚ)⌉₊ = (n + p - 1) / p := by
  have hpq : (0 : ℚ) < (p : ℚ) := by exact_mod_cast hp
  apply le_antisymm
  · rw [Nat.ceil_le, div_le_iff₀ hpq]
    have h1 := Nat.div_add_mod (n + p - 1) p
    have h2 := Nat.mod_lt (n + p - 1) hp
    have h3 : n ≤ (n + p - 1) / p * p := by
      rw [Nat.mul_comm]; omega
    exact_mod_cast h3
  · have h : (n : ℚ) / (p : ℚ) ≤ (⌈(n : ℚ) / (p : ℚ)⌉₊ : ℚ) := Nat.le_ceil _
    rw [div_le_iff₀ hpq] at h
    have h' : n ≤ ⌈(n : ℚ) / (p : ℚ)⌉₊ * p := by exact_mod_cast h
    apply Nat.le_of_lt_succ
    rw [Nat.div_lt_iff_lt_mul hp, Nat.succ_mul]
    omega

theorem lt_ticks_iff (n p j : Nat) (hp : 0 < p) : j < (n + p - 1) / p ↔ j * p < n := by
  rw [Nat.lt_iff_add_one_le, Nat.le_div_iff_mul_le hp, Nat.add_mul]
  omega

theorem advance_iterate (a : Session) (j : Nat) :
    Session.advance^[j] a =
      { a with currentIndex :=
          if j = 0 then a.currentIndex
          else min (a.currentIndex + j * a.pointsPerFrame) a.points.length } := by
  induction j with
  | zero => simp
  | succ j ih =>
    rw [Function.iterate_succ_apply', ih]
    simp only [Session.advance, Session.endIndex, Nat.succ_ne_zero, if_false]
    congr 1
    split_ifs with h0
    · subst h0; simp
    · rw [Nat.add_mul]; omega

theorem cursor_iterate (points : List (Point Int)) (oc : Bool) (j : Nat) :
    (Session.advance^[j] (startSession points oc)).currentIndex =
      min (j * (startSession points oc).pointsPerFrame) points.length := by
  rw [advance_iterate]
  simp only [startSession]
  split_ifs with h0
  · subst h0; simp
  · simp

theorem runFrame_single (τ : Renderer) (id : Nat) (a : Session) (hf : τ.frames = [(id, a)]) :
    runFrame τ = some (animate { τ with frames := [] } a) := by
  unfold runFrame
  rw [hf]

theorem runFrames_going (j : Nat) (τ : Renderer) (id : Nat) (a : Session)
    (hf : τ.frames = [(id, a)])
    (h : ∀ i, i < j → (Session.advance^[i + 1] a).currentIndex < a.points.length) :
    ∃ id', (runFrames j τ).frames = [(id', Session.advance^[j] a)] := by
  induction j generalizing τ id a with
  | zero => exact ⟨id, hf⟩
  | succ j ih =>
    rw [runFrames, runFrame_single τ id a hf]
    simp only
    have h0 : a.endIndex < a.points.length := h 0 (by omega)
    obtain ⟨e1, -, -, -⟩ := animate_fields { τ with frames := [] } a
    rw [if_pos h0] at e1
    simp only [List.nil_append] at e1
    obtain ⟨id', hid'⟩ := ih _ _ a.advance e1 (fun i hi => by
      have := h (i + 1) (by omega)
      rw [Function.iterate_succ_apply] at this
      exact this)
    exact ⟨id', by rw [hid', Function.iterate_succ_apply]⟩

theorem runFrames_done (j : Nat) (τ : Renderer) (id : Nat) (a : Session)
    (hf : τ.frames = [(id, a)])
    (h : ∀ i, i < j → (Session.advance^[i + 1] a).currentIndex < a.points.length)
    (hend : ¬ (Session.advance^[j + 1] a).currentIndex < a.points.length) :
    (runFrames (j + 1) τ).frames = [] := by
  induction j generalizing τ id a with
  | zero =>
    rw [runFrames, runFrame_single τ id a hf]
    simp only [runFrames]
    have h0 : ¬ a.endIndex < a.points.length := hend
    obtain ⟨e1, -, -, -⟩ := animate_fields { τ with frames := [] } a
    rw [if_neg h0] at e1
    exact e1
  | succ j ih =>
    rw [runFrames, runFrame_single τ id a hf]
    simp only
    have h0 : a.endIndex < a.points.length := h 0 (by omega)
    obtain ⟨e1, -, -, -⟩ := animate_fields { τ with frames := [] } a
    rw [if_pos h0] at e1
    simp only [List.nil_append] at e1
    refine ih _ _ a.advance e1 (fun i hi => ?_) ?_
    · have := h (i + 1) (by omega)
      rw [Function.iterate_succ_apply] at this
      exact this
    · rw [Function.iterate_succ_apply] at hend
      exact hend

/-! ### The claims about the animation -/

/-- C6: in every reachable state with a frame of an earlier animation
scheduled, and for every curve of order k ≥ 1: `drawAnimated` returns exactly
when the engine accepts the points of the curve as arguments of one call, and
whenever it returns, exactly one frame is scheduled, which belongs to the new
animation and whose handle is in `animationId`; the earlier handle is no longer
scheduled, and is never scheduled again whatever happens next. -/
theorem drawAnimated_supersedes (σ : Renderer) (hσ : Reachable σ) (hpend : σ.frames ≠ [])
    (k : Nat) (hk : 1 ≤ k) (points : List (Point Int)) (hp : generatePoints k = some points)
    (oc : Bool) :
    ((∃ σ', drawAnimated σ points oc = .ok σ') ↔ points.length ≤ σ.argLimit) ∧
    ∀ σ', drawAnimated σ points oc = .ok σ' →
      ∃ id a, σ'.frames = [(id, a)] ∧ a.points = points ∧ σ'.animationId = some id ∧
        σ.pending ≠ [] ∧
        (∀ old ∈ σ.pending, old ∉ σ'.pending) ∧
        (∀ σ'', Relation.ReflTransGen Step σ' σ'' →
          ∀ old ∈ σ.pending, old ∉ σ''.pending) := by
  have hinv := reachable_inv σ hσ
  have hlen : 2 ≤ points.length := by
    rw [generatePoints_length k points hp]
    calc 2 ≤ 4 ^ 1 := by norm_num
      _ ≤ 4 ^ k := Nat.pow_le_pow_right (by norm_num) hk
  refine ⟨⟨fun ⟨σ', h⟩ => drawAnimated_ok_le σ σ' points oc h, fun hl => ?_⟩, ?_⟩
  · obtain ⟨σ', hok, -⟩ := drawAnimated_spec σ points oc hinv hlen hl
    exact ⟨σ', hok⟩
  intro σ0 hret
  have hl := drawAnimated_ok_le σ σ0 points oc hret
  obtain ⟨σ', hok, hf, ha, hn⟩ := drawAnimated_spec σ points oc hinv hlen hl
  rw [hret, Except.ok.injEq] at hok
  subst hok
  have hstep : Step σ σ0 := by
    have := Step.drawAnimated σ points oc
    rw [hret] at this
    exact this
  have hinv' : Inv σ0 := (step_inv σ σ0 hstep hinv).1
  have hfresh : Fresh σ.nextId σ0 := by
    refine ⟨by omega, ?_⟩
    intro id hid
    simp only [Renderer.pending, hf, List.map_cons, List.map_nil, List.mem_singleton] at hid
    omega
  have hfuture : ∀ σ'', Relation.ReflTransGen Step σ0 σ'' →
      ∀ old ∈ σ.pending, old ∉ σ''.pending := by
    intro σ'' hs old hold hmem
    have h1 := inv_pending_lt σ hinv old hold
    have h2 := (steps_fresh σ.nextId σ0 σ'' hs hinv' hfresh).2 old hmem
    omega
  refine ⟨σ.nextId, (startSession points oc).advance, hf, rfl, ha, ?_,
    hfuture σ0 Relation.ReflTransGen.refl, hfuture⟩
  intro hnil
  apply hpend
  simpa [Renderer.pending] using hnil

theorem drawAnimated_supersedes_witness :
    Reachable (after (drawAnimated (initial 1 65536) [⟨0, 0⟩, ⟨0, 1⟩, ⟨1, 1⟩, ⟨1, 0⟩] true)) ∧
    (after (drawAnimated (initial 1 65536) [⟨0, 0⟩, ⟨0, 1⟩, ⟨1, 1⟩, ⟨1, 0⟩] true)).frames ≠ [] ∧
    1 ≤ 1 ∧ generatePoints 1 = some [⟨0, 0⟩, ⟨0, 1⟩, ⟨1, 1⟩, ⟨1, 0⟩] ∧
    (((∃ σ', drawAnimated (after (drawAnimated (initial 1 65536) [⟨0, 0⟩, ⟨0, 1⟩, ⟨1, 1⟩, ⟨1, 0⟩] true)) [⟨0, 0⟩, ⟨0, 1⟩, ⟨1, 1⟩, ⟨1, 0⟩] false =
        .ok σ') ↔
      ([⟨0, 0⟩, ⟨0, 1⟩, ⟨1, 1⟩, ⟨1, 0⟩] : List (Point Int)).length ≤
        (after (drawAnimated (initial 1 65536) [⟨0, 0⟩, ⟨0, 1⟩, ⟨1, 1⟩, ⟨1, 0⟩] true)).argLimit) ∧
    ∀ σ', drawAnimated (after (drawAnimated (initial 1 65536) [⟨0, 0⟩, ⟨0, 1⟩, ⟨1, 1⟩, ⟨1, 0⟩] true)) [⟨0, 0⟩, ⟨0, 1⟩, ⟨1, 1⟩, ⟨1, 0⟩] false = .ok σ' →
      ∃ id a, σ'.frames = [(id, a)] ∧ a.points = [⟨0, 0⟩, ⟨0, 1⟩, ⟨1, 1⟩, ⟨1, 0⟩] ∧ σ'.animationId = some id ∧
        (after (drawAnimated (initial 1 65536) [⟨0, 0⟩, ⟨0, 1⟩, ⟨1, 1⟩, ⟨1, 0⟩] true)).pending ≠ [] ∧
        (∀ old ∈ (after (drawAnimated (initial 1 65536) [⟨0, 0⟩, ⟨0, 1⟩, ⟨1, 1⟩, ⟨1, 0⟩] true)).pending,
          old ∉ σ'.pending) ∧
        (∀ σ'', Relation.ReflTransGen Step σ' σ'' →
          ∀ old ∈ (after (drawAnimated (initial 1 65536) [⟨0, 0⟩, ⟨0, 1⟩, ⟨1, 1⟩, ⟨1, 0⟩] true)).pending,
            old ∉ σ''.pending)) :=
  ⟨⟨1, 65536, by decide, Relation.ReflTransGen.single (Step.drawAnimated _ _ _)⟩, by decide,
    by decide, by decide,
    drawAnimated_supersedes _
      ⟨1, 65536, by decide, Relation.ReflTransGen.single (Step.drawAnimated _ _ _)⟩
      (by decide) 1 (by decide) [⟨0, 0⟩, ⟨0, 1⟩, ⟨1, 1⟩, ⟨1, 0⟩] (by decide) false⟩

/-- C8: from every reachable state and for every curve of order k ≥ 1:
`drawAnimated` returns exactly when the engine accepts the points of the curve
as arguments of one call; whenever it returns, one frame is scheduled with its
handle in `animationId`, and `stopAnimation` called right after cancels it and
sets `animationId` to null, so that no frame is scheduled, nothing more is
drawn by the host, and the cancelled handle is never scheduled again; and
however the call ended, after `stopAnimation` no frame is scheduled and
`animationId` is null. -/
theorem stopAnimation_after_drawAnimated (σ : Renderer) (hσ : Reachable σ)
    (k : Nat) (hk : 1 ≤ k) (points : List (Point Int)) (hp : generatePoints k = some points)
    (oc : Bool) :
    ((∃ σ', drawAnimated σ points oc = .ok σ') ↔ points.length ≤ σ.argLimit) ∧
    (∀ σ', drawAnimated σ points oc = .ok σ' →
      ∃ id, σ'.pending = [id] ∧ σ'.animationId = some id ∧
        (stopAnimation σ').frames = [] ∧ (stopAnimation σ').animationId = none ∧
        (stopAnimation σ').log = σ'.log ∧
        runFrame (stopAnimation σ') = none ∧
        (∀ j, runFrames j (stopAnimation σ') = stopAnimation σ') ∧
        (∀ σ'', Relation.ReflTransGen Step (stopAnimation σ') σ'' → id ∉ σ''.pending)) ∧
    (stopAnimation (after (drawAnimated σ points oc))).frames = [] ∧
    (stopAnimation (after (drawAnimated σ points oc))).animationId = none := by
  have hinv := reachable_inv σ hσ
  have hlen : 2 ≤ points.length := by
    rw [generatePoints_length k points hp]
    calc 2 ≤ 4 ^ 1 := by norm_num
      _ ≤ 4 ^ k := Nat.pow_le_pow_right (by norm_num) hk
  have hafter : Inv (after (drawAnimated σ points oc)) :=
    (step_inv σ _ (Step.drawAnimated σ points oc) hinv).1
  refine ⟨⟨fun ⟨σ', h⟩ => drawAnimated_ok_le σ σ' points oc h, fun hl => ?_⟩, ?_,
    (stopAnimation_fields _ hafter).1, (stopAnimation_fields _ hafter).2.2.2.1⟩
  · obtain ⟨σ', hok, -⟩ := drawAnimated_spec σ points oc hinv hlen hl
    exact ⟨σ', hok⟩
  intro σ0 hret
  have hl := drawAnimated_ok_le σ σ0 points oc hret
  obtain ⟨σ', hok, hf, ha, hn⟩ := drawAnimated_spec σ points oc hinv hlen hl
  rw [hret, Except.ok.injEq] at hok
  subst hok
  have hinv' : Inv σ0 := by
    rw [hret] at hafter
    exact hafter
  obtain ⟨s1, s2, s3, s4, -⟩ := stopAnimation_fields σ0 hinv'
  have hinv'' : Inv (stopAnimation σ0) :=
    (step_inv σ0 _ (Step.stopAnimation σ0) hinv').1
  have hfresh : Fresh (σ.nextId + 1) (stopAnimation σ0) := by
    refine ⟨by omega, ?_⟩
    intro id hid
    simp [Renderer.pending, s1] at hid
  have hrun : runFrame (stopAnimation σ0) = none := by
    unfold runFrame
    rw [s1]
  refine ⟨σ.nextId, by simp [Renderer.pending, hf], ha, s1, s4, s3, hrun, ?_, ?_⟩
  · intro j
    cases j with
    | zero => rfl
    | succ j => rw [runFrames, hrun]
  · intro σ'' hs hmem
    have := (steps_fresh (σ.nextId + 1) _ σ'' hs hinv'' hfresh).2 σ.nextId hmem
    omega

theorem stopAnimation_after_drawAnimated_witness :
    Reachable (initial 1 65536) ∧ 1 ≤ 1 ∧ generatePoints 1 = some [⟨0, 0⟩, ⟨0, 1⟩, ⟨1, 1⟩, ⟨1, 0⟩] ∧
    (((∃ σ', drawAnimated (initial 1 65536) [⟨0, 0⟩, ⟨0, 1⟩, ⟨1, 1⟩, ⟨1, 0⟩] true = .ok σ') ↔
      ([⟨0, 0⟩, ⟨0, 1⟩, ⟨1, 1⟩, ⟨1, 0⟩] : List (Point Int)).length ≤ (initial 1 65536).argLimit) ∧
    (∀ σ', drawAnimated (initial 1 65536) [⟨0, 0⟩, ⟨0, 1⟩, ⟨1, 1⟩, ⟨1, 0⟩] true = .ok σ' →
      ∃ id, σ'.pending = [id] ∧ σ'.animationId = some id ∧
        (stopAnimation σ').frames = [] ∧ (stopAnimation σ').animationId = none ∧
        (stopAnimation σ').log = σ'.log ∧
        runFrame (stopAnimation σ') = none ∧
        (∀ j, runFrames j (stopAnimation σ') = stopAnimation σ') ∧
        (∀ σ'', Relation.ReflTransGen Step (stopAnimation σ') σ'' → id ∉ σ''.pending)) ∧
    (stopAnimation (after (drawAnimated (initial 1 65536) [⟨0, 0⟩, ⟨0, 1⟩, ⟨1, 1⟩, ⟨1, 0⟩] true))).frames = [] ∧
    (stopAnimation (after (drawAnimated (initial 1 65536) [⟨0, 0⟩, ⟨0, 1⟩, ⟨1, 1⟩, ⟨1, 0⟩] true))).animationId = none) :=
  ⟨⟨1, 65536, by decide, Relation.ReflTransGen.refl⟩, by decide, by decide,
    stopAnimation_after_drawAnimated (initial 1 65536)
      ⟨1, 65536, by decide, Relation.ReflTransGen.refl⟩ 1 (by decide) [⟨0, 0⟩, ⟨0, 1⟩, ⟨1, 1⟩, ⟨1, 0⟩] (by decide) true⟩

/-- C7 fails on the instant path: with the first frame of an animation of the
order-1 curve scheduled under handle 1, the request `generateCurve` with the
animate flag off returns with handle 1 still scheduled and still in
`animationId`, and the next frame of the host runs the old animation. -/
theorem generateCurve_instant_keeps_frame :
    (after (drawAnimated (initial 1 65536) [⟨0, 0⟩, ⟨0, 1⟩, ⟨1, 1⟩, ⟨1, 0⟩] true)).pending = [1] ∧
    (generateCurve (after (drawAnimated (initial 1 65536) [⟨0, 0⟩, ⟨0, 1⟩, ⟨1, 1⟩, ⟨1, 0⟩] true))
      2 false).map (fun r => ((after r).pending, (after r).animationId)) =
      some ([1], some 1) ∧
    (generateCurve (after (drawAnimated (initial 1 65536) [⟨0, 0⟩, ⟨0, 1⟩, ⟨1, 1⟩, ⟨1, 0⟩] true))
      2 false).map (fun r => (runFrame (after r)).isSome) = some true := by
  decide

/-- C10, as stated, fails: on an engine that accepts 65536 arguments in a call,
`drawAnimated` on the 262144 points of the order-9 curve throws at the spread
of line 124; no call of `animate` takes place, no frame is ever scheduled and
nothing is ever drawn, so the animation does not reach its end. -/
theorem drawAnimated_chunking_overflow :
    ∃ points, generatePoints 9 = some points ∧ points.length = 262144 ∧
      drawAnimated (initial 1 65536) points true = .error (initial 1 65536) ∧
      (∀ σ', drawAnimated (initial 1 65536) points true ≠ .ok σ') ∧
      ∀ j, (runFrames j (after (drawAnimated (initial 1 65536) points true))).frames = [] ∧
        (runFrames j (after (drawAnimated (initial 1 65536) points true))).log = [] := by
  have hlen : ((List.range (4 ^ 9)).map (curvePoint 9)).length = 262144 := by
    simp
  have hthrow : drawAnimated (initial 1 65536) ((List.range (4 ^ 9)).map (curvePoint 9)) true =
      .error (initial 1 65536) :=
    drawAnimated_throws _ _ _ (by rw [hlen]; decide)
  refine ⟨_, generatePoints_eq 9, hlen, hthrow, ?_, ?_⟩
  · intro σ' h
    rw [hthrow] at h
    cases h
  · intro j
    rw [hthrow]
    cases j <;> exact ⟨rfl, rfl⟩

/-- C10, amended: for every sequence of N ≥ 1 points that the engine accepts as
arguments of one call, from every reachable state, `drawAnimated` uses
`pointsPerFrame = max(1, ceil(N / 500))`; the cursor `currentIndex` starts at
0, never exceeds N, strictly increases with each of the first
`ceil(N / pointsPerFrame)` calls of `animate`, is below N before the last of
them and equals N after it; that number of calls is at most 500; and on the
renderer the call returns and the animation has its frame scheduled after each
call of `animate` but the last, and none after the last. -/
theorem drawAnimated_chunking (σ : Renderer) (hσ : Reachable σ) (points : List (Point Int))
    (hN : 1 ≤ points.length) (hL : points.length ≤ σ.argLimit) (oc : Bool) :
    (startSession points oc).pointsPerFrame = max 1 ⌈(points.length : ℚ) / 500⌉₊ ∧
    ticks points =
      ⌈(points.length : ℚ) / ((startSession points oc).pointsPerFrame : ℚ)⌉₊ ∧
    (startSession points oc).currentIndex = 0 ∧
    (∀ j, (Session.advance^[j] (startSession points oc)).currentIndex ≤ points.length) ∧
    (∀ j, j < ticks points →
      (Session.advance^[j] (startSession points oc)).currentIndex <
        (Session.advance^[j + 1] (startSession points oc)).currentIndex) ∧
    (∀ j, j < ticks points →
      (Session.advance^[j] (startSession points oc)).currentIndex < points.length) ∧
    (Session.advance^[ticks points] (startSession points oc)).currentIndex = points.length ∧
    1 ≤ ticks points ∧ ticks points ≤ 500 ∧
    ∃ σ1, drawAnimated σ points oc = .ok σ1 ∧
      (∀ j, j + 1 < ticks points →
        ∃ id, (runFrames j σ1).frames =
          [(id, Session.advance^[j + 1] (startSession points oc))]) ∧
      (runFrames (ticks points - 1) σ1).frames = [] := by
  have hinv := reachable_inv σ hσ
  have hppf : (startSession points oc).pointsPerFrame = max 1 ((points.length + 499) / 500) :=
    rfl
  have hP : 0 < (startSession points oc).pointsPerFrame := by rw [hppf]; omega
  have hticks : ticks points = (points.length + (startSession points oc).pointsPerFrame - 1) /
      (startSession points oc).pointsPerFrame := rfl
  have hlt : ∀ j, j < ticks points ↔
      j * (startSession points oc).pointsPerFrame < points.length := by
    intro j
    rw [hticks]
    exact lt_ticks_iff points.length _ j hP
  have hT1 : 1 ≤ ticks points := by
    have := (hlt 0).mpr (by omega)
    omega
  have hT500 : ticks points ≤ 500 := by
    by_contra hcon
    have h1 := (hlt 500).mp (by omega)
    rw [hppf] at h1
    omega
  have hcur := cursor_iterate points oc
  have hbelow : ∀ j, j < ticks points →
      (Session.advance^[j] (startSession points oc)).currentIndex < points.length := by
    intro j hj
    rw [hcur]
    have := (hlt j).mp hj
    omega
  have hend : ¬ (Session.advance^[ticks points] (startSession points oc)).currentIndex <
      points.length := by
    rw [hcur]
    have := (hlt (ticks points)).not.mp (lt_irrefl _)
    omega
  refine ⟨?_, ?_, rfl, ?_, ?_, hbelow, ?_, hT1, hT500, ?_⟩
  · rw [hppf]
    have h := ceil_div_eq points.length 500 (by norm_num)
    push_cast at h
    rw [h]
  · rw [hticks, ceil_div_eq _ _ hP]
  · intro j
    rw [hcur]
    exact Nat.min_le_right _ _
  · intro j hj
    rw [hcur, hcur, Nat.add_mul]
    have := (hlt j).mp hj
    omega
  · have := hcur (ticks points)
    omega
  · have hne : (startSession points oc).points ≠ [] := by
      intro hnil
      simp only [startSession] at hnil
      rw [hnil] at hN
      simp at hN
    obtain ⟨σ1, hok⟩ := animate_ok { σ with frames := [] } (startSession points oc) hne hL
    obtain ⟨e1, -, -, -⟩ := animate_fields { σ with frames := [] } (startSession points oc)
    rw [hok] at e1
    simp only [after, List.nil_append] at e1
    refine ⟨σ1, by rw [drawAnimated_eq σ points oc hinv hL, hok], ?_, ?_⟩
    · intro j hj
      have h1 : (startSession points oc).endIndex < (startSession points oc).points.length :=
        hbelow 1 (by omega)
      rw [if_pos h1] at e1
      obtain ⟨id, hid⟩ := runFrames_going j σ1 _ (startSession points oc).advance e1
        (fun i hi => by
          have := hbelow (i + 2) (by omega)
          rw [Function.iterate_succ_apply] at this
          exact this)
      exact ⟨id, by rw [hid, Function.iterate_succ_apply]⟩
    · by_cases h2 : 2 ≤ ticks points
      · have h1 : (startSession points oc).endIndex < (startSession points oc).points.length :=
          hbelow 1 (by omega)
        rw [if_pos h1] at e1
        obtain ⟨m, hm⟩ : ∃ m, ticks points = m + 2 := ⟨ticks points - 2, by omega⟩
        rw [hm, show m + 2 - 1 = m + 1 from rfl]
        refine runFrames_done m σ1 _ (startSession points oc).advance e1 (fun i hi => ?_) ?_
        · have := hbelow (i + 2) (by omega)
          rw [Function.iterate_succ_apply] at this
          exact this
        · rw [hm, Function.iterate_succ_apply] at hend
          exact hend
      · have hT : ticks points = 1 := by omega
        rw [hT] at hend ⊢
        have h1 : ¬ (startSession points oc).endIndex <
            (startSession points oc).points.length := hend
        rw [if_neg h1] at e1
        exact e1

theorem drawAnimated_chunking_witness :
    Reachable (initial 1 65536) ∧ 1 ≤ [(⟨0, 0⟩ : Point Int), ⟨0, 1⟩, ⟨1, 1⟩, ⟨1, 0⟩].length ∧
    [(⟨0, 0⟩ : Point Int), ⟨0, 1⟩, ⟨1, 1⟩, ⟨1, 0⟩].length ≤ (initial 1 65536).argLimit ∧
    ((startSession [⟨0, 0⟩, ⟨0, 1⟩, ⟨1, 1⟩, ⟨1, 0⟩] true).pointsPerFrame =
      max 1 ⌈(([(⟨0, 0⟩ : Point Int), ⟨0, 1⟩, ⟨1, 1⟩, ⟨1, 0⟩].length : Nat) : ℚ) / 500⌉₊ ∧
    ticks [⟨0, 0⟩, ⟨0, 1⟩, ⟨1, 1⟩, ⟨1, 0⟩] =
      ⌈(([(⟨0, 0⟩ : Point Int), ⟨0, 1⟩, ⟨1, 1⟩, ⟨1, 0⟩].length : Nat) : ℚ) /
        ((startSession [⟨0, 0⟩, ⟨0, 1⟩, ⟨1, 1⟩, ⟨1, 0⟩] true).pointsPerFrame : ℚ)⌉₊ ∧
    (startSession [⟨0, 0⟩, ⟨0, 1⟩, ⟨1, 1⟩, ⟨1, 0⟩] true).currentIndex = 0 ∧
    (∀ j, (Session.advance^[j]
        (startSession [⟨0, 0⟩, ⟨0, 1⟩, ⟨1, 1⟩, ⟨1, 0⟩] true)).currentIndex ≤
      [(⟨0, 0⟩ : Point Int), ⟨0, 1⟩, ⟨1, 1⟩, ⟨1, 0⟩].length) ∧
    (∀ j, j < ticks [⟨0, 0⟩, ⟨0, 1⟩, ⟨1, 1⟩, ⟨1, 0⟩] →
      (Session.advance^[j] (startSession [⟨0, 0⟩, ⟨0, 1⟩, ⟨1, 1⟩, ⟨1, 0⟩] true)).currentIndex <
        (Session.advance^[j + 1]
          (startSession [⟨0, 0⟩, ⟨0, 1⟩, ⟨1, 1⟩, ⟨1, 0⟩] true)).currentIndex) ∧
    (∀ j, j < ticks [⟨0, 0⟩, ⟨0, 1⟩, ⟨1, 1⟩, ⟨1, 0⟩] →
      (Session.advance^[j] (startSession [⟨0, 0⟩, ⟨0, 1⟩, ⟨1, 1⟩, ⟨1, 0⟩] true)).currentIndex <
        [(⟨0, 0⟩ : Point Int), ⟨0, 1⟩, ⟨1, 1⟩, ⟨1, 0⟩].length) ∧
    (Session.advance^[ticks [⟨0, 0⟩, ⟨0, 1⟩, ⟨1, 1⟩, ⟨1, 0⟩]]
        (startSession [⟨0, 0⟩, ⟨0, 1⟩, ⟨1, 1⟩, ⟨1, 0⟩] true)).currentIndex =
      [(⟨0, 0⟩ : Point Int), ⟨0, 1⟩, ⟨1, 1⟩, ⟨1, 0⟩].length ∧
    1 ≤ ticks [⟨0, 0⟩, ⟨0, 1⟩, ⟨1, 1⟩, ⟨1, 0⟩] ∧
    ticks [⟨0, 0⟩, ⟨0, 1⟩, ⟨1, 1⟩, ⟨1, 0⟩] ≤ 500 ∧
    ∃ σ1, drawAnimated (initial 1 65536) [⟨0, 0⟩, ⟨0, 1⟩, ⟨1, 1⟩, ⟨1, 0⟩] true = .ok σ1 ∧
      (∀ j, j + 1 < ticks [⟨0, 0⟩, ⟨0, 1⟩, ⟨1, 1⟩, ⟨1, 0⟩] →
        ∃ id, (runFrames j σ1).frames =
          [(id, Session.advance^[j + 1]
            (startSession [⟨0, 0⟩, ⟨0, 1⟩, ⟨1, 1⟩, ⟨1, 0⟩] true))]) ∧
      (runFrames (ticks [⟨0, 0⟩, ⟨0, 1⟩, ⟨1, 1⟩, ⟨1, 0⟩] - 1) σ1).frames = []) :=
  ⟨⟨1, 65536, by decide, Relation.ReflTransGen.refl⟩, by decide, by decide,
    drawAnimated_chunking (initial 1 65536) ⟨1, 65536, by decide, Relation.ReflTransGen.refl⟩
      [⟨0, 0⟩, ⟨0, 1⟩, ⟨1, 1⟩, ⟨1, 0⟩] (by decide) (by decide) true⟩

end Hilbert
